import Mathlib

/-!
Verification of the band-edge construction and FIR-design adapters of
src/demo.py (interpolation-notes).  The numeric code operates on real
numbers (floats in the source); we embed it over ℝ, with `np.sort`
modelled by `List.insertionSort (· ≤ ·)` and `np.hstack` by list append.
External scipy collaborators (`kaiserord`, `remez`, `firwin2`, `firls`)
are universally-quantified function parameters: the design adapters are
proved to call them with the documented arguments.
-/

open Real List

noncomputable section

/-- Translated from `remezBands` in src/demo.py.  Even `L`: stack
`(0, pi, (2 k pi + w0)/L for k in range(L/2), (2 (k+1) pi - w0)/L for k)`,
sort ascending, divide elementwise by `2 pi`.  Odd `L`: the same with
`k in range((L+1)/2)` and without the `pi` entry, then drop the last
element.  `desired` is `zeros(len(bands) // 2)` with index 0 set to `1.0`. -/
def remezBands (L : ℕ) (w0 : ℝ) : List ℝ × List ℝ :=
  let transitionBands : List ℝ :=
    if L % 2 = 0 then
      (insertionSort (· ≤ ·)
        ([0, π] ++ ((range (L / 2)).map fun (k : ℕ) => (2 * (k : ℝ) * π + w0) / (L : ℝ))
          ++ ((range (L / 2)).map fun (k : ℕ) => (2 * ((k : ℝ) + 1) * π - w0) / (L : ℝ)))).map
        (fun x => x / (2 * π))
    else
      ((insertionSort (· ≤ ·)
        ([0] ++ ((range ((L + 1) / 2)).map fun (k : ℕ) => (2 * (k : ℝ) * π + w0) / (L : ℝ))
          ++ ((range ((L + 1) / 2)).map fun (k : ℕ) => (2 * ((k : ℝ) + 1) * π - w0) / (L : ℝ)))).map
        (fun x => x / (2 * π))).dropLast
  let desired : List ℝ := (replicate (transitionBands.length / 2) (0 : ℝ)).set 0 1
  (transitionBands, desired)

/-- Translated from `remezDesign` in src/demo.py; `kaiserord` and `remez`
are the external scipy collaborators, passed as parameters. -/
def remezDesign (kaiserord : ℝ → ℝ → ℕ × ℝ) (remez : ℕ → List ℝ → List ℝ → List ℝ)
    (L : ℕ) (w0 rippleDb : ℝ) : List ℝ :=
  let ntaps := (kaiserord rippleDb ((2 * π - 2 * w0) / ((L : ℝ) * (2 * π)))).1
  let bandsDesired := remezBands L w0
  remez ntaps bandsDesired.1 bandsDesired.2

/-- Translated from `firwin2Design` in src/demo.py; out-of-range indexing
(a Python `IndexError`) is modelled by `getD` with junk default `0`. -/
def firwin2Design (kaiserord : ℝ → ℝ → ℕ × ℝ)
    (firwin2 : ℕ → List ℝ → List ℝ → ℝ → List ℝ)
    (L : ℕ) (w0 rippleDb : ℝ) : List ℝ :=
  let ntaps := (kaiserord rippleDb ((2 * π - 2 * w0) / ((L : ℝ) * (2 * π)))).1
  let bands := (remezBands L w0).1
  firwin2 ntaps [0, bands.getD 1 0, bands.getD 2 0, 0.5] [1, 1, 0, 0] 0.5

/-- Translated from the `np.vstack([g, g]).T.ravel()` step of `firlsDesign`:
a 2×n stack, transposed to rows `[g i, g i]`, flattened row-major. -/
def dupGains (g : List ℝ) : List ℝ := (g.map fun x => [x, x]).flatten

/-- Translated from `firlsDesign` in src/demo.py: the Kaiser estimate is
incremented by one when even (firls requires odd numtaps), and each gain
entry is duplicated across the two edges of its band. -/
def firlsDesign (kaiserord : ℝ → ℝ → ℕ × ℝ)
    (firls : ℕ → List ℝ → List ℝ → ℝ → List ℝ)
    (L : ℕ) (w0 rippleDb : ℝ) : List ℝ :=
  let ntaps0 := (kaiserord rippleDb ((2 * π - 2 * w0) / ((L : ℝ) * (2 * π)))).1
  let ntaps := if ntaps0 % 2 = 0 then ntaps0 + 1 else ntaps0
  let bg := remezBands L w0
  firls ntaps bg.1 (dupGains bg.2) 0.5

/-- Lower candidate band edge around the k-th spectral image: `(2 k π + w0)/L`. -/
def aEdge (L : ℕ) (w0 : ℝ) (k : ℕ) : ℝ := (2 * (k : ℝ) * π + w0) / (L : ℝ)

/-- Upper candidate band edge around the k-th spectral image: `(2 (k+1) π − w0)/L`. -/
def bEdge (L : ℕ) (w0 : ℝ) (k : ℕ) : ℝ := (2 * ((k : ℝ) + 1) * π - w0) / (L : ℝ)

/-- The interleaved ascending run `a 0, b 0, a 1, b 1, …, a (m-1), b (m-1)`
of the image band-edge pairs. -/
def sortedMid (L : ℕ) (w0 : ℝ) (m : ℕ) : List ℝ :=
  ((range m).map fun k => [aEdge L w0 k, bEdge L w0 k]).flatten

/-- The even-`L` candidate edge set of the spec,
`{0, π} ∪ {(2kπ + w0)/L : k < L/2} ∪ {(2(k+1)π − w0)/L : k < L/2}`,
as a list of reals. -/
def specCandEven (L : ℕ) (w0 : ℝ) : List ℝ :=
  [0, π] ++ ((range (L / 2)).map fun k => aEdge L w0 k)
    ++ ((range (L / 2)).map fun k => bEdge L w0 k)

/-- The odd-`L` candidate edge set of the spec,
`{0} ∪ {(2kπ + w0)/L : k < (L+1)/2} ∪ {(2(k+1)π − w0)/L : k < (L+1)/2}`,
as a list of reals. -/
def specCandOdd (L : ℕ) (w0 : ℝ) : List ℝ :=
  [0] ++ ((range ((L + 1) / 2)).map fun k => aEdge L w0 k)
    ++ ((range ((L + 1) / 2)).map fun k => bEdge L w0 k)

theorem sortedMid_succ (L : ℕ) (w0 : ℝ) (m : ℕ) :
    sortedMid L w0 (m + 1) = sortedMid L w0 m ++ [aEdge L w0 m, bEdge L w0 m] := by
  simp [sortedMid, range_succ]

theorem length_sortedMid (L : ℕ) (w0 : ℝ) (m : ℕ) :
    (sortedMid L w0 m).length = 2 * m := by
  induction m with
  | zero => simp [sortedMid]
  | succ n ih => rw [sortedMid_succ, length_append, ih]; simp; ring

theorem mem_sortedMid {L : ℕ} {w0 : ℝ} {m : ℕ} {x : ℝ} :
    x ∈ sortedMid L w0 m ↔ ∃ k < m, x = aEdge L w0 k ∨ x = bEdge L w0 k := by
  constructor
  · intro hx
    simp only [sortedMid, mem_flatten, mem_map, mem_range] at hx
    obtain ⟨l, ⟨k, hk, rfl⟩, hxl⟩ := hx
    have hx2 : x = aEdge L w0 k ∨ x = bEdge L w0 k := by simpa using hxl
    rcases hx2 with h | h
    · exact ⟨k, hk, Or.inl h⟩
    · exact ⟨k, hk, Or.inr h⟩
  · rintro ⟨k, hk, h | h⟩ <;>
    · subst h
      simp only [sortedMid, mem_flatten, mem_map, mem_range]
      exact ⟨_, ⟨k, hk, rfl⟩, by simp⟩

theorem perm_sortedMid (L : ℕ) (w0 : ℝ) (m : ℕ) :
    ((range m).map fun k => aEdge L w0 k) ++ ((range m).map fun k => bEdge L w0 k) ~
      sortedMid L w0 m := by
  induction m with
  | zero => simp [sortedMid]
  | succ n ih =>
      rw [sortedMid_succ, range_succ, map_append, map_append]
      calc ((range n).map fun k => aEdge L w0 k) ++ [aEdge L w0 n]
            ++ (((range n).map fun k => bEdge L w0 k) ++ [bEdge L w0 n])
          ~ ((range n).map fun k => aEdge L w0 k)
            ++ ([aEdge L w0 n] ++ (((range n).map fun k => bEdge L w0 k) ++ [bEdge L w0 n])) := by
            rw [append_assoc]
        _ ~ ((range n).map fun k => aEdge L w0 k)
            ++ (((range n).map fun k => bEdge L w0 k) ++ [aEdge L w0 n, bEdge L w0 n]) := by
            refine Perm.append_left _ ?_
            calc [aEdge L w0 n] ++ (((range n).map fun k => bEdge L w0 k) ++ [bEdge L w0 n])
                ~ (((range n).map fun k => bEdge L w0 k) ++ [bEdge L w0 n]) ++ [aEdge L w0 n] :=
                  perm_append_comm
              _ ~ ((range n).map fun k => bEdge L w0 k) ++ ([bEdge L w0 n] ++ [aEdge L w0 n]) := by
                  rw [append_assoc]
              _ ~ ((range n).map fun k => bEdge L w0 k) ++ [aEdge L w0 n, bEdge L w0 n] :=
                  Perm.append_left _ (Perm.swap _ _ _)
        _ ~ ((range n).map fun k => aEdge L w0 k)
            ++ ((range n).map fun k => bEdge L w0 k) ++ [aEdge L w0 n, bEdge L w0 n] := by
            rw [append_assoc]
        _ ~ sortedMid L w0 n ++ [aEdge L w0 n, bEdge L w0 n] := Perm.append_right _ ih

theorem aEdge_pos {L : ℕ} {w0 : ℝ} (hL : 0 < L) (hw0 : 0 < w0) (k : ℕ) :
    0 < aEdge L w0 k := by
  have hL' : (0 : ℝ) < (L : ℝ) := by exact_mod_cast hL
  have hk : (0 : ℝ) ≤ (k : ℝ) := Nat.cast_nonneg k
  have := Real.pi_pos
  unfold aEdge
  positivity

theorem aEdge_lt_bEdge {L : ℕ} {w0 : ℝ} (hL : 0 < L) (hw1 : w0 < π) (k : ℕ) :
    aEdge L w0 k < bEdge L w0 k := by
  have hL' : (0 : ℝ) < (L : ℝ) := by exact_mod_cast hL
  unfold aEdge bEdge
  rw [div_lt_div_right hL']
  nlinarith [hw1]

theorem aEdge_le_aEdge {L : ℕ} {w0 : ℝ} (hL : 0 < L) {j m : ℕ} (h : j ≤ m) :
    aEdge L w0 j ≤ aEdge L w0 m := by
  have hL' : (0 : ℝ) < (L : ℝ) := by exact_mod_cast hL
  have hj : (j : ℝ) ≤ (m : ℝ) := by exact_mod_cast h
  unfold aEdge
  rw [div_le_div_right hL']
  nlinarith [Real.pi_pos]

theorem bEdge_le_aEdge {L : ℕ} {w0 : ℝ} (hL : 0 < L) (hw0 : 0 < w0) {j m : ℕ}
    (h : j < m) : bEdge L w0 j ≤ aEdge L w0 m := by
  have hL' : (0 : ℝ) < (L : ℝ) := by exact_mod_cast hL
  have hj : (j : ℝ) + 1 ≤ (m : ℝ) := by exact_mod_cast Nat.succ_le_of_lt h
  unfold aEdge bEdge
  rw [div_le_div_right hL']
  nlinarith [Real.pi_pos, hw0]

theorem le_aEdge_of_mem_sortedMid {L : ℕ} {w0 : ℝ} {m : ℕ} {x : ℝ} (hL : 0 < L)
    (hw0 : 0 < w0) (hx : x ∈ sortedMid L w0 m) : x ≤ aEdge L w0 m := by
  obtain ⟨k, hk, h | h⟩ := mem_sortedMid.mp hx
  · exact h ▸ aEdge_le_aEdge hL (Nat.le_of_lt hk)
  · exact h ▸ bEdge_le_aEdge hL hw0 hk

theorem pos_of_mem_sortedMid {L : ℕ} {w0 : ℝ} {m : ℕ} {x : ℝ} (hL : 0 < L)
    (hw0 : 0 < w0) (hw1 : w0 < π) (hx : x ∈ sortedMid L w0 m) : 0 < x := by
  obtain ⟨k, _, h | h⟩ := mem_sortedMid.mp hx
  · exact h ▸ aEdge_pos hL hw0 k
  · exact h ▸ lt_trans (aEdge_pos hL hw0 k) (aEdge_lt_bEdge hL hw1 k)

theorem sorted_sortedMid {L : ℕ} {w0 : ℝ} (hL : 0 < L) (hw0 : 0 < w0) (hw1 : w0 < π)
    (m : ℕ) : Sorted (· ≤ ·) (sortedMid L w0 m) := by
  induction m with
  | zero => simp [sortedMid]
  | succ n ih =>
      rw [sortedMid_succ, Sorted]
      rw [pairwise_append]
      refine ⟨ih, ?_, ?_⟩
      · simp [Sorted, (aEdge_lt_bEdge hL hw1 n).le]
      · intro x hx y hy
        have hxa : x ≤ aEdge L w0 n := le_aEdge_of_mem_sortedMid hL hw0 hx
        have hy2 : y = aEdge L w0 n ∨ y = bEdge L w0 n := by simpa using hy
        rcases hy2 with rfl | rfl
        · exact hxa
        · exact hxa.trans (aEdge_lt_bEdge hL hw1 n).le

theorem bEdge_le_pi {L : ℕ} {w0 : ℝ} (hw0 : 0 < w0) {k : ℕ} (h : 2 * (k + 1) ≤ L) :
    bEdge L w0 k ≤ π := by
  have hL : 0 < L := lt_of_lt_of_le (by omega) h
  have hL' : (0 : ℝ) < (L : ℝ) := by exact_mod_cast hL
  have hk : 2 * ((k : ℝ) + 1) ≤ (L : ℝ) := by exact_mod_cast h
  unfold bEdge
  rw [div_le_iff hL']
  nlinarith [Real.pi_pos, hw0, mul_le_mul_of_nonneg_right hk Real.pi_pos.le]

theorem aEdge_le_pi {L : ℕ} {w0 : ℝ} (hw1 : w0 < π) {k : ℕ} (h : 2 * k + 1 ≤ L) :
    aEdge L w0 k ≤ π := by
  have hL : 0 < L := lt_of_lt_of_le (by omega) h
  have hL' : (0 : ℝ) < (L : ℝ) := by exact_mod_cast hL
  have hk : 2 * (k : ℝ) + 1 ≤ (L : ℝ) := by exact_mod_cast h
  unfold aEdge
  rw [div_le_iff hL']
  nlinarith [Real.pi_pos, mul_le_mul_of_nonneg_right hk Real.pi_pos.le]

theorem remezBands_even_def {L : ℕ} {w0 : ℝ} (hEven : L % 2 = 0) :
    (remezBands L w0).1 =
      (insertionSort (· ≤ ·) (specCandEven L w0)).map (fun x => x / (2 * π)) := by
  simp only [remezBands, specCandEven, aEdge, bEdge]
  rw [if_pos hEven]

theorem remezBands_odd_def {L : ℕ} {w0 : ℝ} (hOdd : L % 2 = 1) :
    (remezBands L w0).1 =
      ((insertionSort (· ≤ ·) (specCandOdd L w0)).map (fun x => x / (2 * π))).dropLast := by
  simp only [remezBands, specCandOdd, aEdge, bEdge]
  rw [if_neg (by omega : ¬ L % 2 = 0)]

theorem sorted_cons_sortedMid {L : ℕ} {w0 : ℝ} (hL : 0 < L) (hw0 : 0 < w0)
    (hw1 : w0 < π) (m : ℕ) : Sorted (· ≤ ·) ((0 : ℝ) :: sortedMid L w0 m) := by
  rw [sorted_cons]
  exact ⟨fun b hb => (pos_of_mem_sortedMid hL hw0 hw1 hb).le, sorted_sortedMid hL hw0 hw1 m⟩

theorem le_pi_of_mem_sortedMid_even {L : ℕ} {w0 : ℝ} (hEven : L % 2 = 0) (hw0 : 0 < w0)
    (hw1 : w0 < π) {x : ℝ} (hx : x ∈ sortedMid L w0 (L / 2)) : x ≤ π := by
  obtain ⟨k, hk, h | h⟩ := mem_sortedMid.mp hx
  · exact h ▸ aEdge_le_pi hw1 (by omega)
  · exact h ▸ bEdge_le_pi hw0 (by omega)

theorem sorted_even_closed {L : ℕ} {w0 : ℝ} (hL2 : 2 ≤ L) (hEven : L % 2 = 0)
    (hw0 : 0 < w0) (hw1 : w0 < π) :
    Sorted (· ≤ ·) ((0 : ℝ) :: (sortedMid L w0 (L / 2) ++ [π])) := by
  have hL : 0 < L := by omega
  rw [sorted_cons]
  constructor
  · intro b hb
    rcases mem_append.mp hb with h | h
    · exact (pos_of_mem_sortedMid hL hw0 hw1 h).le
    · simp only [mem_singleton] at h
      exact h ▸ Real.pi_pos.le
  · rw [Sorted, pairwise_append]
    refine ⟨sorted_sortedMid hL hw0 hw1 _, by simp, ?_⟩
    intro x hx y hy
    simp only [mem_singleton] at hy
    exact hy ▸ le_pi_of_mem_sortedMid_even hEven hw0 hw1 hx

theorem insertionSort_specCandEven {L : ℕ} {w0 : ℝ} (hL2 : 2 ≤ L) (hEven : L % 2 = 0)
    (hw0 : 0 < w0) (hw1 : w0 < π) :
    insertionSort (· ≤ ·) (specCandEven L w0) =
      (0 : ℝ) :: (sortedMid L w0 (L / 2) ++ [π]) := by
  apply eq_of_perm_of_sorted ((perm_insertionSort _ _).trans ?_)
    (sorted_insertionSort _ _) (sorted_even_closed hL2 hEven hw0 hw1)
  have h0 : specCandEven L w0 =
      (0 : ℝ) :: π :: (((range (L / 2)).map fun k => aEdge L w0 k)
        ++ ((range (L / 2)).map fun k => bEdge L w0 k)) := by
    simp [specCandEven]
  rw [h0]
  refine Perm.cons 0 ?_
  calc (π : ℝ) :: (((range (L / 2)).map fun k => aEdge L w0 k)
        ++ ((range (L / 2)).map fun k => bEdge L w0 k))
      ~ π :: sortedMid L w0 (L / 2) := Perm.cons π (perm_sortedMid L w0 (L / 2))
    _ ~ sortedMid L w0 (L / 2) ++ [π] := (perm_append_singleton π _).symm

theorem insertionSort_specCandOdd {L : ℕ} {w0 : ℝ} (hL : 0 < L)
    (hw0 : 0 < w0) (hw1 : w0 < π) :
    insertionSort (· ≤ ·) (specCandOdd L w0) =
      (0 : ℝ) :: sortedMid L w0 ((L + 1) / 2) := by
  apply eq_of_perm_of_sorted ((perm_insertionSort _ _).trans ?_)
    (sorted_insertionSort _ _) (sorted_cons_sortedMid hL hw0 hw1 _)
  have h0 : specCandOdd L w0 =
      (0 : ℝ) :: (((range ((L + 1) / 2)).map fun k => aEdge L w0 k)
        ++ ((range ((L + 1) / 2)).map fun k => bEdge L w0 k)) := by
    simp [specCandOdd]
  rw [h0]
  exact Perm.cons 0 (perm_sortedMid L w0 ((L + 1) / 2))

theorem remezBands_even_eq {L : ℕ} {w0 : ℝ} (hL2 : 2 ≤ L) (hEven : L % 2 = 0)
    (hw0 : 0 < w0) (hw1 : w0 < π) :
    (remezBands L w0).1 =
      ((0 : ℝ) :: (sortedMid L w0 (L / 2) ++ [π])).map (fun x => x / (2 * π)) := by
  rw [remezBands_even_def hEven, insertionSort_specCandEven hL2 hEven hw0 hw1]

theorem remezBands_odd_eq {L : ℕ} {w0 : ℝ} (hL2 : 2 ≤ L) (hOdd : L % 2 = 1)
    (hw0 : 0 < w0) (hw1 : w0 < π) :
    (remezBands L w0).1 =
      ((0 : ℝ) :: (sortedMid L w0 ((L + 1) / 2 - 1)
        ++ [aEdge L w0 ((L + 1) / 2 - 1)])).map (fun x => x / (2 * π)) := by
  have hL : 0 < L := by omega
  obtain ⟨m, hm⟩ : ∃ m, (L + 1) / 2 = m + 1 := ⟨(L + 1) / 2 - 1, by omega⟩
  rw [remezBands_odd_def hOdd, insertionSort_specCandOdd hL hw0 hw1, hm,
    Nat.add_sub_cancel, sortedMid_succ]
  have hsplit : (0 : ℝ) :: (sortedMid L w0 m ++ [aEdge L w0 m, bEdge L w0 m]) =
      ((0 : ℝ) :: (sortedMid L w0 m ++ [aEdge L w0 m])) ++ [bEdge L w0 m] := by
    simp
  rw [hsplit, map_append]
  simp only [map_cons, map_nil, dropLast_concat]

theorem sorted_odd_closed {L : ℕ} {w0 : ℝ} (hL : 0 < L) (hw0 : 0 < w0) (hw1 : w0 < π)
    (m : ℕ) : Sorted (· ≤ ·) ((0 : ℝ) :: (sortedMid L w0 m ++ [aEdge L w0 m])) := by
  rw [sorted_cons]
  constructor
  · intro b hb
    rcases mem_append.mp hb with h | h
    · exact (pos_of_mem_sortedMid hL hw0 hw1 h).le
    · simp only [mem_singleton] at h
      exact h ▸ (aEdge_pos hL hw0 m).le
  · rw [Sorted, pairwise_append]
    refine ⟨sorted_sortedMid hL hw0 hw1 m, by simp, ?_⟩
    intro x hx y hy
    simp only [mem_singleton] at hy
    exact hy ▸ le_aEdge_of_mem_sortedMid hL hw0 hx

theorem div_two_pi_mono {x y : ℝ} (h : x ≤ y) : x / (2 * π) ≤ y / (2 * π) :=
  div_le_div_of_nonneg_right h (by positivity) |>.trans_eq rfl

theorem sorted_bands {L : ℕ} {w0 : ℝ} (hL2 : 2 ≤ L) (hw0 : 0 < w0) (hw1 : w0 < π) :
    Sorted (· ≤ ·) (remezBands L w0).1 := by
  have hL : 0 < L := by omega
  rcases Nat.even_or_odd L with hE | hO
  · rw [remezBands_even_eq hL2 (Nat.even_iff.mp hE) hw0 hw1]
    exact Pairwise.map _ (fun _ _ hab => div_two_pi_mono hab)
      (sorted_even_closed hL2 (Nat.even_iff.mp hE) hw0 hw1)
  · rw [remezBands_odd_eq hL2 (Nat.odd_iff.mp hO) hw0 hw1]
    exact Pairwise.map _ (fun _ _ hab => div_two_pi_mono hab)
      (sorted_odd_closed hL hw0 hw1 _)

theorem length_bands_even {L : ℕ} {w0 : ℝ} (hL2 : 2 ≤ L) (hEven : L % 2 = 0)
    (hw0 : 0 < w0) (hw1 : w0 < π) : (remezBands L w0).1.length = L + 2 := by
  rw [remezBands_even_eq hL2 hEven hw0 hw1]
  simp [length_sortedMid]
  omega

theorem length_bands_odd {L : ℕ} {w0 : ℝ} (hL2 : 2 ≤ L) (hOdd : L % 2 = 1)
    (hw0 : 0 < w0) (hw1 : w0 < π) : (remezBands L w0).1.length = L + 1 := by
  rw [remezBands_odd_eq hL2 hOdd hw0 hw1]
  simp [length_sortedMid]
  omega

theorem mem_bands_bounds {L : ℕ} {w0 : ℝ} (hL2 : 2 ≤ L) (hw0 : 0 < w0) (hw1 : w0 < π)
    {x : ℝ} (hx : x ∈ (remezBands L w0).1) : 0 ≤ x ∧ x ≤ 1 / 2 := by
  have hL : 0 < L := by omega
  have hπ := Real.pi_pos
  have key : ∃ y, 0 ≤ y ∧ y ≤ π ∧ x = y / (2 * π) := by
    rcases Nat.even_or_odd L with hE | hO
    · rw [remezBands_even_eq hL2 (Nat.even_iff.mp hE) hw0 hw1] at hx
      obtain ⟨y, hy, rfl⟩ := mem_map.mp hx
      rcases mem_cons.mp hy with rfl | hy2
      · exact ⟨0, le_refl 0, hπ.le, rfl⟩
      · rcases mem_append.mp hy2 with h | h
        · exact ⟨y, (pos_of_mem_sortedMid hL hw0 hw1 h).le,
            le_pi_of_mem_sortedMid_even (Nat.even_iff.mp hE) hw0 hw1 h, rfl⟩
        · simp only [mem_singleton] at h
          exact ⟨y, h ▸ hπ.le, h ▸ le_refl π, rfl⟩
    · rw [remezBands_odd_eq hL2 (Nat.odd_iff.mp hO) hw0 hw1] at hx
      obtain ⟨y, hy, rfl⟩ := mem_map.mp hx
      have hOdd := Nat.odd_iff.mp hO
      have hma : aEdge L w0 ((L + 1) / 2 - 1) ≤ π := aEdge_le_pi hw1 (by omega)
      rcases mem_cons.mp hy with rfl | hy2
      · exact ⟨0, le_refl 0, hπ.le, rfl⟩
      · rcases mem_append.mp hy2 with h | h
        · exact ⟨y, (pos_of_mem_sortedMid hL hw0 hw1 h).le,
            (le_aEdge_of_mem_sortedMid hL hw0 h).trans hma, rfl⟩
        · simp only [mem_singleton] at h
          exact ⟨y, h ▸ (aEdge_pos hL hw0 _).le, h ▸ hma, rfl⟩
  obtain ⟨y, hy0, hyπ, rfl⟩ := key
  constructor
  · positivity
  · rw [div_le_iff (by positivity)]
    linarith

theorem bands_head {L : ℕ} {w0 : ℝ} (hL2 : 2 ≤ L) (hw0 : 0 < w0) (hw1 : w0 < π) :
    (remezBands L w0).1.head? = some 0 := by
  rcases Nat.even_or_odd L with hE | hO
  · rw [remezBands_even_eq hL2 (Nat.even_iff.mp hE) hw0 hw1]
    simp
  · rw [remezBands_odd_eq hL2 (Nat.odd_iff.mp hO) hw0 hw1]
    simp

theorem gains_def (L : ℕ) (w0 : ℝ) :
    (remezBands L w0).2 = (replicate ((remezBands L w0).1.length / 2) (0 : ℝ)).set 0 1 :=
  rfl

theorem four_le_length_bands {L : ℕ} {w0 : ℝ} (hL2 : 2 ≤ L) (hw0 : 0 < w0)
    (hw1 : w0 < π) : 4 ≤ (remezBands L w0).1.length := by
  rcases Nat.even_or_odd L with hE | hO
  · rw [length_bands_even hL2 (Nat.even_iff.mp hE) hw0 hw1]
    omega
  · have h := Nat.odd_iff.mp hO
    rw [length_bands_odd hL2 h hw0 hw1]
    omega

/-- C1: for every even L ≥ 2 and every w0 with 0 < w0 < π, the bands vector
of `remezBands` is exactly the candidate set
`{0, π} ∪ {(2kπ+w0)/L : k < L/2} ∪ {(2(k+1)π−w0)/L : k < L/2}` sorted
ascending and divided elementwise by 2π: it is sorted and is a permutation
of the normalized candidate set. -/
theorem remezBands_even_sorted_perm_spec (L : ℕ) (w0 : ℝ) (hL2 : 2 ≤ L)
    (hEven : L % 2 = 0) (hw0 : 0 < w0) (hw1 : w0 < π) :
    Sorted (· ≤ ·) (remezBands L w0).1 ∧
      (remezBands L w0).1 ~ (specCandEven L w0).map (fun x => x / (2 * π)) := by
  refine ⟨sorted_bands hL2 hw0 hw1, ?_⟩
  rw [remezBands_even_def hEven]
  exact (perm_insertionSort _ _).map _

/-- C2: for every odd L ≥ 3 and every w0 with 0 < w0 < π, the bands vector
of `remezBands` is the candidate set
`{0} ∪ {(2kπ+w0)/L : k < (L+1)/2} ∪ {(2(k+1)π−w0)/L : k < (L+1)/2}`
sorted ascending, divided by 2π, with the last (maximal) element dropped:
the result is sorted, appending the normalized dropped edge
`(2·((L+1)/2)·π − w0)/L / 2π` back yields a permutation of the normalized
candidate set, and the dropped edge dominates every kept entry. -/
theorem remezBands_odd_sorted_perm_spec (L : ℕ) (w0 : ℝ) (hL2 : 2 ≤ L)
    (hOdd : L % 2 = 1) (hw0 : 0 < w0) (hw1 : w0 < π) :
    Sorted (· ≤ ·) (remezBands L w0).1 ∧
      (remezBands L w0).1 ++ [bEdge L w0 ((L + 1) / 2 - 1) / (2 * π)] ~
        (specCandOdd L w0).map (fun x => x / (2 * π)) ∧
      ∀ x ∈ (remezBands L w0).1, x ≤ bEdge L w0 ((L + 1) / 2 - 1) / (2 * π) := by
  have hL : 0 < L := by omega
  have hm : (L + 1) / 2 - 1 + 1 = (L + 1) / 2 := by omega
  refine ⟨sorted_bands hL2 hw0 hw1, ?_, ?_⟩
  · rw [remezBands_odd_eq hL2 hOdd hw0 hw1]
    have h1 : (((0 : ℝ) :: (sortedMid L w0 ((L + 1) / 2 - 1)
          ++ [aEdge L w0 ((L + 1) / 2 - 1)])).map (fun x => x / (2 * π)))
          ++ [bEdge L w0 ((L + 1) / 2 - 1) / (2 * π)] =
        ((0 : ℝ) :: sortedMid L w0 ((L + 1) / 2)).map (fun x => x / (2 * π)) := by
      rw [← hm, sortedMid_succ]
      simp [append_assoc]
    rw [h1]
    refine Perm.map _ ?_
    rw [← insertionSort_specCandOdd hL hw0 hw1]
    exact perm_insertionSort _ _
  · intro x hx
    rw [remezBands_odd_eq hL2 hOdd hw0 hw1] at hx
    obtain ⟨y, hy, rfl⟩ := mem_map.mp hx
    apply div_two_pi_mono
    have hab := aEdge_lt_bEdge hL hw1 ((L + 1) / 2 - 1)
    rcases mem_cons.mp hy with rfl | hy2
    · exact (lt_trans (aEdge_pos hL hw0 _) hab).le
    · rcases mem_append.mp hy2 with h | h
      · exact (le_aEdge_of_mem_sortedMid hL hw0 h).trans hab.le
      · simp only [mem_singleton] at h
        exact h ▸ hab.le

/-- C3: for every L ≥ 2 (even or odd) and every w0 with 0 < w0 < π, the
bands vector of `remezBands` has even length, is non-decreasing (sorted),
has every entry in [0, 1/2], and its first entry is 0. -/
theorem remezBands_invariants (L : ℕ) (w0 : ℝ) (hL2 : 2 ≤ L) (hw0 : 0 < w0)
    (hw1 : w0 < π) :
    Even (remezBands L w0).1.length ∧ Sorted (· ≤ ·) (remezBands L w0).1 ∧
      (∀ x ∈ (remezBands L w0).1, 0 ≤ x ∧ x ≤ 1 / 2) ∧
      (remezBands L w0).1.head? = some 0 := by
  refine ⟨?_, sorted_bands hL2 hw0 hw1,
    fun x hx => mem_bands_bounds hL2 hw0 hw1 hx, bands_head hL2 hw0 hw1⟩
  rcases Nat.even_or_odd L with hE | hO
  · have h := Nat.even_iff.mp hE
    rw [length_bands_even hL2 h hw0 hw1]
    exact Nat.even_iff.mpr (by omega)
  · have h := Nat.odd_iff.mp hO
    rw [length_bands_odd hL2 h hw0 hw1]
    exact Nat.even_iff.mpr (by omega)

/-- C4: for every valid input, the gains vector of `remezBands` has length
exactly half the bands length, its entry at index 0 is 1, and every other
in-range entry is 0. -/
theorem remezBands_gains_spec (L : ℕ) (w0 : ℝ) (hL2 : 2 ≤ L) (hw0 : 0 < w0)
    (hw1 : w0 < π) :
    (remezBands L w0).2.length = (remezBands L w0).1.length / 2 ∧
      (remezBands L w0).2.getD 0 0 = 1 ∧
      ∀ i, 0 < i → i < (remezBands L w0).2.length →
        (remezBands L w0).2.getD i 0 = 0 := by
  have hlen4 : 4 ≤ (remezBands L w0).1.length := four_le_length_bands hL2 hw0 hw1
  have hn : 0 < (remezBands L w0).1.length / 2 := by omega
  refine ⟨by rw [gains_def, length_set, length_replicate], ?_, ?_⟩
  · rw [gains_def, getD_eq_getElem?_getD,
      getElem?_set_self (by simpa using hn)]
    rfl
  · intro i hi hilen
    rw [gains_def, length_set, length_replicate] at hilen
    rw [gains_def, getD_eq_getElem?_getD, getElem?_set_ne (by omega : (0 : ℕ) ≠ i),
      getElem?_replicate_of_lt hilen]
    rfl

/-- C9: for every L ≥ 2 and 0 < w0 < π, the bands vector has length L+2 for
even L and L+1 for odd L, and the gains vector has length L/2 + 1 (floor
division). -/
theorem remezBands_lengths (L : ℕ) (w0 : ℝ) (hL2 : 2 ≤ L) (hw0 : 0 < w0)
    (hw1 : w0 < π) :
    (remezBands L w0).1.length = (if L % 2 = 0 then L + 2 else L + 1) ∧
      (remezBands L w0).2.length = L / 2 + 1 := by
  have hlen : (remezBands L w0).1.length = (if L % 2 = 0 then L + 2 else L + 1) := by
    rcases Nat.even_or_odd L with hE | hO
    · have h := Nat.even_iff.mp hE
      rw [if_pos h]
      exact length_bands_even hL2 h hw0 hw1
    · have h := Nat.odd_iff.mp hO
      rw [if_neg (by omega)]
      exact length_bands_odd hL2 h hw0 hw1
  refine ⟨hlen, ?_⟩
  rw [gains_def, length_set, length_replicate, hlen]
  rcases Nat.even_or_odd L with hE | hO
  · have h := Nat.even_iff.mp hE
    rw [if_pos h]
    omega
  · have h := Nat.odd_iff.mp hO
    rw [if_neg (by omega)]
    omega

/-- C10: for every L ≥ 2 and 0 < w0 < π, the bands vector has length at
least 4, so the index-1 and index-2 accesses made by `firwin2Design` are
within bounds. -/
theorem remezBands_length_ge_four (L : ℕ) (w0 : ℝ) (hL2 : 2 ≤ L) (hw0 : 0 < w0)
    (hw1 : w0 < π) :
    4 ≤ (remezBands L w0).1.length ∧ 1 < (remezBands L w0).1.length ∧
      2 < (remezBands L w0).1.length := by
  have h := four_le_length_bands hL2 hw0 hw1
  exact ⟨h, by omega, by omega⟩

theorem dupGains_nil : dupGains [] = [] := rfl

theorem dupGains_cons (x : ℝ) (g : List ℝ) :
    dupGains (x :: g) = x :: x :: dupGains g := rfl

theorem dupGains_length (g : List ℝ) : (dupGains g).length = 2 * g.length := by
  induction g with
  | nil => rfl
  | cons x t ih => rw [dupGains_cons, length_cons, length_cons, ih, length_cons]; ring

theorem dupGains_getElem (g : List ℝ) (i : ℕ) :
    (dupGains g)[2 * i]? = g[i]? ∧ (dupGains g)[2 * i + 1]? = g[i]? := by
  induction g generalizing i with
  | nil => simp [dupGains_nil]
  | cons x t ih =>
      rw [dupGains_cons]
      cases i with
      | zero => simp
      | succ j =>
          have h1 : 2 * (j + 1) = 2 * j + 1 + 1 := by ring
          rw [h1]
          constructor
          · rw [getElem?_cons_succ, getElem?_cons_succ, getElem?_cons_succ]
            exact (ih j).1
          · rw [getElem?_cons_succ, getElem?_cons_succ, getElem?_cons_succ]
            exact (ih j).2

/-- C7: the gain-duplication step of `firlsDesign` maps any gains vector
`[g0, …, g(n-1)]` to `[g0, g0, …, g(n-1), g(n-1)]`: the output has twice
the length, its entries at indices 2i and 2i+1 both equal entry i of the
input, and in particular `[1, 0, 0]` maps to `[1, 1, 0, 0, 0, 0]`. -/
theorem dupGains_spec :
    (∀ g : List ℝ, (dupGains g).length = 2 * g.length ∧
      ∀ i, (dupGains g)[2 * i]? = g[i]? ∧ (dupGains g)[2 * i + 1]? = g[i]?) ∧
      dupGains [1, 0, 0] = [1, 1, 0, 0, 0, 0] :=
  ⟨fun g => ⟨dupGains_length g, fun i => dupGains_getElem g i⟩, rfl⟩

/-- C6: `firwin2Design` invokes the external frequency-sampling designer with
exactly the four frequency control points `[0, bands[1], bands[2], 0.5]` and
the four gains `[1, 1, 0, 0]`, where `bands` is the vector produced by
`remezBands`; no other band edges are passed. -/
theorem firwin2Design_four_points (kaiserord : ℝ → ℝ → ℕ × ℝ)
    (firwin2 : ℕ → List ℝ → List ℝ → ℝ → List ℝ) (L : ℕ) (w0 rippleDb : ℝ) :
    firwin2Design kaiserord firwin2 L w0 rippleDb =
      firwin2 (kaiserord rippleDb ((2 * π - 2 * w0) / ((L : ℝ) * (2 * π)))).1
        [0, (remezBands L w0).1.getD 1 0, (remezBands L w0).1.getD 2 0, 0.5]
        [1, 1, 0, 0] 0.5 ∧
      [(0 : ℝ), (remezBands L w0).1.getD 1 0, (remezBands L w0).1.getD 2 0,
        0.5].length = 4 ∧
      [(1 : ℝ), 1, 0, 0].length = 4 :=
  ⟨rfl, rfl, rfl⟩

/-- C8: all three design strategies call the Kaiser order estimator with the
identical argument pair (rippleDb, (2π − 2·w0)/(L·2π)) and hence obtain the
same estimate n; `remezDesign` and `firwin2Design` use n unchanged, while
`firlsDesign` uses n+1 exactly when n is even. -/
theorem designs_kaiser_consistent (kaiserord : ℝ → ℝ → ℕ × ℝ)
    (remez : ℕ → List ℝ → List ℝ → List ℝ)
    (firwin2 : ℕ → List ℝ → List ℝ → ℝ → List ℝ)
    (firls : ℕ → List ℝ → List ℝ → ℝ → List ℝ) (L : ℕ) (w0 rippleDb : ℝ) :
    ∃ n : ℕ, n = (kaiserord rippleDb ((2 * π - 2 * w0) / ((L : ℝ) * (2 * π)))).1 ∧
      remezDesign kaiserord remez L w0 rippleDb =
        remez n (remezBands L w0).1 (remezBands L w0).2 ∧
      firwin2Design kaiserord firwin2 L w0 rippleDb =
        firwin2 n [0, (remezBands L w0).1.getD 1 0, (remezBands L w0).1.getD 2 0, 0.5]
          [1, 1, 0, 0] 0.5 ∧
      firlsDesign kaiserord firls L w0 rippleDb =
        firls (if n % 2 = 0 then n + 1 else n) (remezBands L w0).1
          (dupGains (remezBands L w0).2) 0.5 :=
  ⟨_, rfl, rfl, rfl, rfl⟩

/-- C5: for L = 2 and w0 = 0.9π, `remezBands` returns exactly 4 band edges
with the passband interval ending at 0.225; for L = 3 and w0 = 0.9π it
returns (after truncation) exactly 4 edges with the passband ending at
0.15. -/
theorem remezBands_concrete_cases :
    (remezBands 2 (0.9 * π)).1.length = 4 ∧
      (remezBands 2 (0.9 * π)).1.getD 1 0 = 0.225 ∧
      (remezBands 3 (0.9 * π)).1.length = 4 ∧
      (remezBands 3 (0.9 * π)).1.getD 1 0 = 0.15 := by
  have hπ := Real.pi_pos
  have hπ0 := Real.pi_ne_zero
  have hw0 : (0 : ℝ) < 0.9 * π := by positivity
  have hw1 : (0.9 : ℝ) * π < π := by nlinarith
  have h2 := @remezBands_even_eq 2 (0.9 * π) (by norm_num) (by norm_num) hw0 hw1
  have h3 := @remezBands_odd_eq 3 (0.9 * π) (by norm_num) (by norm_num) hw0 hw1
  have hs2 : sortedMid 2 (0.9 * π) (2 / 2) =
      [aEdge 2 (0.9 * π) 0, bEdge 2 (0.9 * π) 0] := by
    simp [sortedMid, range_succ]
  have hs3 : sortedMid 3 (0.9 * π) ((3 + 1) / 2 - 1) =
      [aEdge 3 (0.9 * π) 0, bEdge 3 (0.9 * π) 0] := by
    simp [sortedMid, range_succ]
  rw [hs2] at h2
  rw [hs3] at h3
  refine ⟨?_, ?_, ?_, ?_⟩
  · rw [h2]
    simp
  · rw [h2]
    simp only [map_cons, cons_append, nil_append, map_nil]
    simp only [getD_eq_getElem?_getD, getElem?_cons_succ, getElem?_cons_zero,
      Option.getD_some]
    simp only [aEdge]
    push_cast
    field_simp
    ring
  · rw [h3]
    simp
  · rw [h3]
    simp only [map_cons, cons_append, nil_append, map_nil]
    simp only [getD_eq_getElem?_getD, getElem?_cons_succ, getElem?_cons_zero,
      Option.getD_some]
    simp only [aEdge]
    push_cast
    field_simp
    ring

/-- Witness for C1 at the concrete input L = 2, w0 = π/2. -/
theorem remezBands_even_sorted_perm_spec_witness :
    Sorted (· ≤ ·) (remezBands 2 (π / 2)).1 ∧
      (remezBands 2 (π / 2)).1 ~ (specCandEven 2 (π / 2)).map (fun x => x / (2 * π)) :=
  remezBands_even_sorted_perm_spec 2 (π / 2) (by norm_num) (by norm_num)
    (by positivity) (by linarith [Real.pi_pos])

/-- Witness for C2 at the concrete input L = 3, w0 = π/2. -/
theorem remezBands_odd_sorted_perm_spec_witness :
    Sorted (· ≤ ·) (remezBands 3 (π / 2)).1 ∧
      (remezBands 3 (π / 2)).1 ++ [bEdge 3 (π / 2) ((3 + 1) / 2 - 1) / (2 * π)] ~
        (specCandOdd 3 (π / 2)).map (fun x => x / (2 * π)) ∧
      ∀ x ∈ (remezBands 3 (π / 2)).1,
        x ≤ bEdge 3 (π / 2) ((3 + 1) / 2 - 1) / (2 * π) :=
  remezBands_odd_sorted_perm_spec 3 (π / 2) (by norm_num) (by norm_num)
    (by positivity) (by linarith [Real.pi_pos])

/-- Witness for C3 at the concrete input L = 4, w0 = π/2. -/
theorem remezBands_invariants_witness :
    Even (remezBands 4 (π / 2)).1.length ∧ Sorted (· ≤ ·) (remezBands 4 (π / 2)).1 ∧
      (∀ x ∈ (remezBands 4 (π / 2)).1, 0 ≤ x ∧ x ≤ 1 / 2) ∧
      (remezBands 4 (π / 2)).1.head? = some 0 :=
  remezBands_invariants 4 (π / 2) (by norm_num) (by positivity)
    (by linarith [Real.pi_pos])

/-- Witness for C4 at the concrete input L = 2, w0 = π/3. -/
theorem remezBands_gains_spec_witness :
    (remezBands 2 (π / 3)).2.length = (remezBands 2 (π / 3)).1.length / 2 ∧
      (remezBands 2 (π / 3)).2.getD 0 0 = 1 ∧
      ∀ i, 0 < i → i < (remezBands 2 (π / 3)).2.length →
        (remezBands 2 (π / 3)).2.getD i 0 = 0 :=
  remezBands_gains_spec 2 (π / 3) (by norm_num) (by positivity)
    (by linarith [Real.pi_pos])

/-- Witness for C9 at the concrete input L = 5, w0 = π/4. -/
theorem remezBands_lengths_witness :
    (remezBands 5 (π / 4)).1.length = (if 5 % 2 = 0 then 5 + 2 else 5 + 1) ∧
      (remezBands 5 (π / 4)).2.length = 5 / 2 + 1 :=
  remezBands_lengths 5 (π / 4) (by norm_num) (by positivity)
    (by linarith [Real.pi_pos])

/-- Witness for C10 at the concrete input L = 2, w0 = π/4. -/
theorem remezBands_length_ge_four_witness :
    4 ≤ (remezBands 2 (π / 4)).1.length ∧ 1 < (remezBands 2 (π / 4)).1.length ∧
      2 < (remezBands 2 (π / 4)).1.length :=
  remezBands_length_ge_four 2 (π / 4) (by norm_num) (by positivity)
    (by linarith [Real.pi_pos])
